import Mathlib

/-!
Shallow embedding of the dominoes rules engine (`models.py`, `config.py`).

Python's mutable objects are modelled by explicit state passing: methods that
mutate `self` become functions returning the updated value; code paths that
raise (`IndexError`, calling a method on `None`) or block forever return
`Option`/`none`.  Python `list` is `List`, `list.pop()` pops the last element,
`list.pop(i)` removes index `i`, `list.index`/`in` use `__eq__` (modelled by
the `BEq Tile` instance below, which is the translation of `Tile.__eq__`),
and `list.sort(key=...)` / `sorted(...)` are stable sorts, modelled with
Mathlib's (stable) `List.insertionSort`.
-/

namespace Dominoes

/-- `Tile` from `models.py`: two integer faces, stored in construction order. -/
structure Tile where
  x : Nat
  y : Nat
deriving DecidableEq, Repr

/-- `Tile.__eq__`: compares the faces pairwise, in stored order. -/
def Tile.beq (t u : Tile) : Bool :=
  t.x == u.x && t.y == u.y

instance : BEq Tile := ⟨Tile.beq⟩

theorem Tile.beq_iff (t u : Tile) : (t == u) = true ↔ t = u := by
  cases t; cases u
  simp [(· == ·), Tile.beq, Tile.mk.injEq]

instance : LawfulBEq Tile where
  eq_of_beq h := (Tile.beq_iff _ _).1 h
  rfl := by intro t; exact (Tile.beq_iff t t).2 rfl

/-- `Tile.is_double`. -/
def Tile.isDouble (t : Tile) : Bool := t.x == t.y

/-- `Tile.weight`: sum of the two faces. -/
def Tile.weight (t : Tile) : Nat := t.x + t.y

/-- `Tile.__gt__`: `self.x >= other.x and self.y > other.y` (a product order,
not a lexicographic one). -/
def Tile.gtb (t u : Tile) : Bool := decide (t.x ≥ u.x) && decide (t.y > u.y)

/-- `Path` from `models.py`: one open end of the chain. -/
structure Path where
  index : Nat
  value : Nat
  depth : Nat
deriving DecidableEq, Repr

/-- `Board` from `models.py`: placed tiles plus the open paths. -/
structure Board where
  tiles : List Tile
  paths : List Path
deriving DecidableEq, Repr

/-- `Player` from `models.py`, restricted to the fields the rules engine
mutates: the hand, the cumulative score and the per-turn availability flag. -/
structure Player where
  hand : List Tile
  score : Nat := 0
  isMoveAvailable : Bool := true
deriving DecidableEq, Repr

/-- The game-rules options of `config.py` with their default values. -/
structure Config where
  tilesToDrawIfTwoPlayers : Nat := 7
  tilesToDrawIfMoreThanTwoPlayers : Nat := 5
  pointsForZeroZero : Nat := 10
  goatScore : Nat := 101
deriving Repr

/-- `Player.get_total_weight`. -/
def Player.getTotalWeight (p : Player) : Nat :=
  (p.hand.map Tile.weight).sum

/-- `Player.is_empty_hand`. -/
def Player.isEmptyHand (p : Player) : Bool := p.hand.isEmpty

/-- `Player.is_a_goat`: note the comparison is against the literal `101`,
not against the `goat_score` configuration value. -/
def Player.isAGoat (p : Player) : Bool := decide (p.score ≥ 101)

/-- `Player.take_tile_out_of_hand`: `None` when the tile is absent, otherwise
removes the first occurrence (Python `hand.pop(hand.index(tile))`) and
returns it together with the updated player. -/
def Player.takeTileOutOfHand (p : Player) (t : Tile) : Option (Tile × Player) :=
  if p.hand.contains t then some (t, { p with hand := p.hand.erase t }) else none

/-- The descending rank relation used by `Player.get_highest_rank_tile`:
Python `sorted(hand, key=lambda tile: (tile.x, tile.y), reverse=True)` puts
`a` before `b` when the key of `a` is lexicographically ≥ the key of `b`. -/
def rankGE (a b : Tile) : Prop :=
  b.x < a.x ∨ (b.x = a.x ∧ b.y ≤ a.y)

instance : DecidableRel rankGE := fun a b => by
  unfold rankGE; infer_instance

/-- `Player.get_highest_rank_tile`: first element of the hand stably sorted
in descending `(x, y)` lexicographic order; `none` models the `IndexError`
on an empty hand. -/
def Player.getHighestRankTile (p : Player) : Option Tile :=
  (p.hand.insertionSort rankGE).head?

/-- `Player.choose_tile` for an interactive player, with the stream of
attempted inputs made explicit: each attempt absent from the hand or from the
suitable set is rejected and the next attempt is requested; `none` models the
loop never receiving a valid attempt. -/
def Player.chooseTile (hand suitable : List Tile) : List Tile → Option Tile
  | [] => none
  | m :: rest =>
    if !(hand.contains m) then Player.chooseTile hand suitable rest
    else if !(suitable.contains m) then Player.chooseTile hand suitable rest
    else some m

/-- `Board.add_starting_tile`. -/
def Board.addStartingTile (b : Board) (t : Tile) : Board :=
  { tiles := b.tiles ++ [t]
    paths :=
      if t.isDouble then
        b.paths ++ [⟨0, t.x, 1⟩, ⟨1, t.x, 1⟩, ⟨2, t.x, 1⟩, ⟨3, t.x, 1⟩]
      else
        b.paths ++ [⟨0, t.x, 1⟩, ⟨1, t.y, 1⟩] }

/-- The first filter of `Board.process_new_tile`: paths whose value matches
either face of the tile. -/
def Board.matchingPaths (b : Board) (t : Tile) : List Path :=
  b.paths.filter (fun p => t.x == p.value || t.y == p.value)

/-- The candidate list of `Board.process_new_tile` after the connecting-value
step: when the matching paths expose two distinct values the external decision
`cv` refilters the full path list, otherwise the matching paths stand. -/
def Board.candidatePaths (b : Board) (t : Tile) (cv : Nat) : List Path :=
  let paths := b.matchingPaths t
  if ((paths.map Path.value).dedup).length == 2 then
    b.paths.filter (fun p => cv == p.value)
  else
    paths

/-- The depth comparison `Board.process_new_tile` sorts the candidates by. -/
def depthLE (a b : Path) : Prop := a.depth ≤ b.depth

instance : DecidableRel depthLE := fun a b => by
  unfold depthLE; infer_instance

/-- `Board.process_new_tile`: appends the tile, filters and (on a two-value
ambiguity, resolved by `cv`) refilters the paths, stably sorts the candidates
by depth, and updates the path stored at the first candidate's `index`.
`none` models the `IndexError` on an empty candidate list or an out-of-range
index. -/
def Board.processNewTile (b : Board) (t : Tile) (cv : Nat) : Option Board :=
  match ((b.candidatePaths t cv).insertionSort depthLE).head? with
  | none => none
  | some first =>
    match b.paths.get? first.index with
    | none => none
    | some chosen =>
      some { tiles := b.tiles ++ [t]
             paths := b.paths.set first.index
               ⟨chosen.index, if t.x == chosen.value then t.y else t.x,
                chosen.depth + 1⟩ }

/-- `Game.get_suitable_tiles`: hand tiles one of whose faces equals some open
path value. -/
def getSuitableTiles (b : Board) (hand : List Tile) : List Tile :=
  hand.filter (fun t => b.paths.any (fun p => p.value == t.x) || b.paths.any (fun p => p.value == t.y))

/-- `Game.draw_one_tile_from_stock`: pops the last stock tile into the hand;
`none` models the `IndexError` on an empty stock. -/
def drawOneTileFromStock (stock : List Tile) (p : Player) :
    Option (List Tile × Player) :=
  match stock.getLast? with
  | none => none
  | some t => some (stock.dropLast, { p with hand := p.hand ++ [t] })

/-- `Game.write_down_scores`: each player's score grows by the remaining hand
weight, substituting `points_for_zero_zero` when that weight is 0 but the
hand is non-empty. -/
def writeDownScores (cfg : Config) (players : List Player) : List Player :=
  players.map (fun p =>
    let delta := p.getTotalWeight
    let delta := if delta == 0 && !p.isEmptyHand then cfg.pointsForZeroZero else delta
    { p with score := p.score + delta })

/-- `Game.is_game_over`: the loop detecting goats is an existence check. -/
def isGameOver (players : List Player) : Bool :=
  players.any Player.isAGoat

/-- The double list `Game.make_opening_move` scans: `1-1` … `6-6`, then `0-0`. -/
def openingDoubles : List Tile :=
  [⟨1, 1⟩, ⟨2, 2⟩, ⟨3, 3⟩, ⟨4, 4⟩, ⟨5, 5⟩, ⟨6, 6⟩, ⟨0, 0⟩]

/-- The double-scanning loop of `Game.make_opening_move`: for each double in
order, the first player holding it wins. -/
def findDoubleHolder (players : List Player) : List Tile → Option (Tile × Nat)
  | [] => none
  | d :: rest =>
    match players.findIdx? (fun p => p.hand.contains d) with
    | some i => some (d, i)
    | none => findDoubleHolder players rest

/-- The fallback loop of `Game.make_opening_move`: scan the players keeping a
running best (initialised to tile `0 0` at index 0), replacing it only when a
player's highest-rank tile is `Tile.__gt__`-greater; `none` models the crash
of `get_highest_rank_tile` on an empty hand. -/
def fallbackScan : List Player → Nat → Tile → Nat → Option (Tile × Nat)
  | [], _, best, bestIdx => some (best, bestIdx)
  | p :: rest, i, best, bestIdx =>
    match p.getHighestRankTile with
    | none => none
    | some t =>
      if t.gtb best then fallbackScan rest (i + 1) t i
      else fallbackScan rest (i + 1) best bestIdx

/-- `Game.make_opening_move`: the chosen opener's tile is taken out of their
hand onto the board and the opener is rotated to the end of the player list.
`none` models the crashes on an empty hand or a missing tile. -/
def makeOpeningMove (players : List Player) (b : Board) :
    Option (List Player × Board) :=
  match findDoubleHolder players openingDoubles with
  | some (d, i) =>
    match players.get? i with
    | none => none
    | some p =>
      match p.takeTileOutOfHand d with
      | none => none
      | some (t, p') => some (players.eraseIdx i ++ [p'], b.addStartingTile t)
  | none =>
    match fallbackScan players 0 ⟨0, 0⟩ 0 with
    | none => none
    | some (hrt, i) =>
      match players.get? i with
      | none => none
      | some p =>
        match p.takeTileOutOfHand hrt with
        | none => none
        | some (t, p') => some (players.eraseIdx i ++ [p'], b.addStartingTile t)

/-- The mutable state `Game.make_move` and `Game.draw_one_tile_from_stock`
touch: the players' hands, the stock and the board. -/
structure GameState where
  players : List Player
  stock : List Tile
  board : Board
deriving Repr

/-- Total number of tiles in play: all hands plus the stock plus the placed
tiles of the board. -/
def GameState.totalTiles (s : GameState) : Nat :=
  (s.players.map (fun p => p.hand.length)).sum + s.stock.length + s.board.tiles.length

/-- The two elementary state mutations of a round after the opening move
(`Game.make_move`): drawing one stock tile into the current player's hand,
and playing one tile out of the current player's hand onto the board. -/
inductive RoundStep : GameState → GameState → Prop
  | draw (s : GameState) (i : Nat) (p : Player) (stock' : List Tile) (p' : Player) :
      s.players.get? i = some p →
      drawOneTileFromStock s.stock p = some (stock', p') →
      RoundStep s ⟨s.players.set i p', stock', s.board⟩
  | play (s : GameState) (i : Nat) (p : Player) (m t : Tile) (p' : Player)
      (cv : Nat) (b' : Board) :
      s.players.get? i = some p →
      p.takeTileOutOfHand m = some (t, p') →
      s.board.processNewTile t cv = some b' →
      RoundStep s ⟨s.players.set i p', s.stock, b'⟩

/-- The choose–take–play portion of `Game.make_move` for an interactive
player, with the stream of attempted inputs explicit. -/
def makeMoveStep (s : GameState) (i : Nat) (inputs : List Tile) (cv : Nat) :
    Option GameState :=
  match s.players.get? i with
  | none => none
  | some p =>
    match Player.chooseTile p.hand (getSuitableTiles s.board p.hand) inputs with
    | none => none
    | some m =>
      match p.takeTileOutOfHand m with
      | none => none
      | some (t, p') =>
        match s.board.processNewTile t cv with
        | none => none
        | some b' => some { s with players := s.players.set i p', board := b' }

/-- Well-formedness of a board's path list: every path's `index` field equals
its position in the list. -/
def Board.PathsWF (b : Board) : Prop :=
  ∀ i (h : i < b.paths.length), (b.paths.get ⟨i, h⟩).index = i

/-- The multiset of every tile in play: all hands, the stock and the placed
tiles of the board. -/
def GameState.allTiles (s : GameState) : Multiset Tile :=
  (s.players.map (fun p => (p.hand : Multiset Tile))).sum
    + (s.stock : Multiset Tile) + (s.board.tiles : Multiset Tile)

/-- Spec-side description of a hand's pick for the opening fallback: the
lexicographically largest tile of the hand by `(first face, second face)`,
the earliest such tile on ties. -/
def handMaxXY : List Tile → Option Tile
  | [] => none
  | t :: ts =>
    match handMaxXY ts with
    | none => some t
    | some m => some (if t.x < m.x ∨ (t.x = m.x ∧ t.y < m.y) then m else t)

/-- Spec-side description of the opening fallback scan: walk the players in
order keeping a running best tile, replacing it with a player's `handMaxXY`
pick exactly when that pick's first face is ≥ and its second face is > the
running best's. -/
def specFallbackScan : List Player → Nat → Tile → Nat → Option (Tile × Nat)
  | [], _, best, bestIdx => some (best, bestIdx)
  | p :: rest, i, best, bestIdx =>
    match handMaxXY p.hand with
    | none => none
    | some c =>
      if best.x ≤ c.x ∧ best.y < c.y then specFallbackScan rest (i + 1) c i
      else specFallbackScan rest (i + 1) best bestIdx

/-- Spec-side opening fallback: the scan started from tile `0 0` at index 0. -/
def specFallback (players : List Player) : Option (Tile × Nat) :=
  specFallbackScan players 0 ⟨0, 0⟩ 0

/-- The rank order the specification claims for the opening fallback:
compare `(higher face, lower face)` lexicographically. -/
def specRankGt (a b : Tile) : Prop :=
  max a.x a.y > max b.x b.y ∨ (max a.x a.y = max b.x b.y ∧ min a.x a.y > min b.x b.y)

end Dominoes

namespace Dominoes

/-! ### Generic list helpers -/

/-- The element an `insertionSort`-based "sort, then take the head" idiom
produces: the first element of the list that wins the comparison against the
best of the rest. -/
def firstBest (r : α → α → Prop) [DecidableRel r] : List α → Option α
  | [] => none
  | a :: xs =>
    match firstBest r xs with
    | none => some a
    | some b => some (if r a b then a else b)

theorem firstBest_eq_none {r : α → α → Prop} [DecidableRel r] {l : List α} :
    firstBest r l = none ↔ l = [] := by
  cases l with
  | nil => simp [firstBest]
  | cons a xs =>
    simp only [firstBest]
    cases firstBest r xs <;> simp

theorem head?_orderedInsert (r : α → α → Prop) [DecidableRel r] (a : α)
    (l : List α) :
    (List.orderedInsert r a l).head? =
      some (match l.head? with
            | none => a
            | some b => if r a b then a else b) := by
  cases l with
  | nil => rfl
  | cons b t =>
    by_cases h : r a b <;> simp [List.orderedInsert, h]

theorem head?_insertionSort (r : α → α → Prop) [DecidableRel r] (l : List α) :
    (l.insertionSort r).head? = firstBest r l := by
  induction l with
  | nil => rfl
  | cons a xs ih =>
    show (List.orderedInsert r a (xs.insertionSort r)).head? = _
    rw [head?_orderedInsert, ih]
    cases h : firstBest r xs with
    | none =>
      simp [firstBest, h]
    | some b =>
      simp [firstBest, h]

theorem perm_cons_erase_beq [BEq α] [LawfulBEq α] {a : α} {l : List α}
    (h : a ∈ l) : l.Perm (a :: l.erase a) := by
  induction l with
  | nil => cases h
  | cons x xs ih =>
    by_cases hx : (x == a) = true
    · have hxa : x = a := eq_of_beq hx
      subst hxa
      rw [List.erase_cons_head]
    · have hxa : x ≠ a := fun hh => hx (hh ▸ LawfulBEq.rfl)
      have ha : a ∈ xs := by
        cases h with
        | head => exact absurd rfl hxa
        | tail _ h => exact h
      rw [List.erase_cons_tail]
      · exact ((ih ha).cons x).trans (List.Perm.swap a x _)
      · simpa using hx

theorem sum_set_add {M : Type*} [AddCommMonoid M] (l : List M) (i : ℕ) (a : M)
    (h : i < l.length) :
    (l.set i a).sum + l.get ⟨i, h⟩ = l.sum + a := by
  induction l generalizing i with
  | nil => simp at h
  | cons x xs ih =>
    cases i with
    | zero =>
      simp only [List.set, List.sum_cons, List.get]
      abel
    | succ n =>
      have hn : n < xs.length := by simpa using h
      simp only [List.set, List.sum_cons, List.get]
      rw [add_assoc, ih n hn, ← add_assoc]

theorem mapSum_set {M : Type*} [AddCommMonoid M] (f : Player → M)
    (l : List Player) (i : ℕ) (p p' : Player) (h : l.get? i = some p) :
    ((l.set i p').map f).sum + f p = (l.map f).sum + f p' := by
  obtain ⟨hi, hget⟩ := List.get?_eq_some.mp h
  have hmi : i < (l.map f).length := by simpa using hi
  have key := sum_set_add (l.map f) i (f p') hmi
  have hfp : (l.map f).get ⟨i, hmi⟩ = f p := by
    rw [List.get_map, hget]
  rw [hfp] at key
  rw [List.map_set]
  exact key

end Dominoes

namespace Dominoes

/-! ### Basic facts about the embedded operations -/

theorem tile_contains_iff (l : List Tile) (t : Tile) :
    l.contains t = true ↔ t ∈ l :=
  List.elem_iff

theorem takeTileOutOfHand_eq_some {p : Player} {m : Tile} {t : Tile}
    {p' : Player} (h : p.takeTileOutOfHand m = some (t, p')) :
    m ∈ p.hand ∧ t = m ∧ p' = { p with hand := p.hand.erase m } := by
  unfold Player.takeTileOutOfHand at h
  by_cases hc : p.hand.contains m = true
  · rw [if_pos hc] at h
    obtain ⟨ht, hp⟩ := Prod.mk.injEq .. ▸ Option.some.inj h
    exact ⟨(tile_contains_iff _ _).1 hc, ht.symm, hp.symm⟩
  · rw [if_neg hc] at h
    cases h

theorem drawOneTileFromStock_eq_some {stock : List Tile} {p : Player}
    {stock' : List Tile} {p' : Player}
    (h : drawOneTileFromStock stock p = some (stock', p')) :
    ∃ t, stock = stock' ++ [t] ∧ p'.hand = p.hand ++ [t] := by
  unfold drawOneTileFromStock at h
  cases hl : stock.getLast? with
  | none => rw [hl] at h; cases h
  | some t =>
    rw [hl] at h
    obtain ⟨hs, hp⟩ := Prod.mk.injEq .. ▸ Option.some.inj h
    refine ⟨t, ?_, by rw [← hp]⟩
    rw [← hs]
    have hne : stock ≠ [] := by
      intro hnil; rw [hnil] at hl; cases hl
    have hlast : stock.getLast hne = t := by
      have h2 := List.getLast?_eq_getLast_of_ne_nil hne
      rw [hl] at h2
      exact (Option.some.inj h2).symm
    have h3 := List.dropLast_concat_getLast hne
    rw [hlast] at h3
    exact h3.symm

theorem processNewTile_eq_some {b : Board} {t : Tile} {cv : Nat} {b' : Board}
    (h : b.processNewTile t cv = some b') :
    ∃ first chosen,
      ((b.candidatePaths t cv).insertionSort depthLE).head? = some first ∧
      b.paths.get? first.index = some chosen ∧
      b' = ⟨b.tiles ++ [t],
            b.paths.set first.index
              ⟨chosen.index, if t.x == chosen.value then t.y else t.x,
               chosen.depth + 1⟩⟩ := by
  unfold Board.processNewTile at h
  split at h
  · cases h
  · rename_i first hh
    split at h
    · cases h
    · rename_i chosen hg
      exact ⟨first, chosen, hh, hg, (Option.some.inj h).symm⟩

/-! ### Well-formedness of the path list -/

theorem pathsWF_get? {b : Board} (hwf : b.PathsWF) {p : Path}
    (hp : p ∈ b.paths) :
    p.index < b.paths.length ∧ b.paths.get? p.index = some p := by
  obtain ⟨⟨i, hi⟩, hget⟩ := List.mem_iff_get.mp hp
  have hidx : p.index = i := by rw [← hget]; exact hwf i hi
  subst hidx
  exact ⟨hi, by rw [List.get?_eq_get hi, hget]⟩

theorem pathsWF_pairwise {b : Board} (hwf : b.PathsWF) :
    b.paths.Pairwise (fun p q => p.index < q.index) := by
  rw [List.pairwise_iff_get]
  intro i j hij
  rw [hwf i.val i.isLt, hwf j.val j.isLt]
  exact hij

/-! ### The first path of lowest depth -/

theorem firstBest_depth_split :
    ∀ (l : List Path) (m : Path), firstBest depthLE l = some m →
      ∃ l₁ l₂, l = l₁ ++ m :: l₂ ∧ (∀ q ∈ l₁, m.depth < q.depth) ∧
        (∀ q ∈ l₂, m.depth ≤ q.depth) := by
  intro l
  induction l with
  | nil => intro m h; simp [firstBest] at h
  | cons a xs ih =>
    intro m h
    rw [firstBest] at h
    cases hx : firstBest depthLE xs with
    | none =>
      rw [hx] at h
      have h' : some a = some m := h
      have hxs : xs = [] := firstBest_eq_none.mp hx
      have hm : m = a := (Option.some.inj h').symm
      exact ⟨[], [], by simp [hxs, hm], by simp, by simp⟩
    | some b =>
      rw [hx] at h
      have h' : some (if depthLE a b then a else b) = some m := h
      obtain ⟨l₁, l₂, hsplit, h₁, h₂⟩ := ih b hx
      by_cases hc : depthLE a b
      · have hm : m = a := by
          rw [if_pos hc] at h'; exact (Option.some.inj h').symm
        subst hm
        have hab : m.depth ≤ b.depth := hc
        refine ⟨[], xs, by simp, by simp, ?_⟩
        intro q hq
        rw [hsplit] at hq
        rcases List.mem_append.mp hq with hq1 | hq2
        · have := h₁ q hq1
          omega
        · rcases List.mem_cons.mp hq2 with rfl | hq2
          · exact hab
          · have := h₂ q hq2
            omega
      · have hm : m = b := by
          rw [if_neg hc] at h'; exact (Option.some.inj h').symm
        subst hm
        have hba : m.depth < a.depth := Nat.lt_of_not_le hc
        refine ⟨a :: l₁, l₂, by simp [hsplit], ?_, h₂⟩
        intro q hq
        rcases List.mem_cons.mp hq with rfl | hq1
        · exact hba
        · exact h₁ q hq1

end Dominoes

namespace Dominoes

/-! ### Candidate paths -/

theorem mem_matchingPaths {b : Board} {t : Tile} {q : Path} :
    q ∈ b.matchingPaths t ↔ q ∈ b.paths ∧ (q.value = t.x ∨ q.value = t.y) := by
  rw [Board.matchingPaths, List.mem_filter]
  constructor
  · rintro ⟨hq, hv⟩
    refine ⟨hq, ?_⟩
    simp only [Bool.or_eq_true, beq_iff_eq] at hv
    omega
  · rintro ⟨hq, hv⟩
    refine ⟨hq, ?_⟩
    simp only [Bool.or_eq_true, beq_iff_eq]
    omega

theorem candidatePaths_subset {b : Board} {t : Tile} {cv : Nat} {q : Path}
    (hq : q ∈ b.candidatePaths t cv) : q ∈ b.paths := by
  unfold Board.candidatePaths at hq
  by_cases h2 : ((((b.matchingPaths t).map Path.value).dedup.length == 2) = true)
  · rw [if_pos h2] at hq
    exact (List.mem_filter.mp hq).1
  · rw [if_neg h2] at hq
    exact (mem_matchingPaths.mp hq).1

theorem candidatePaths_sublist (b : Board) (t : Tile) (cv : Nat) :
    (b.candidatePaths t cv).Sublist b.paths := by
  unfold Board.candidatePaths
  by_cases h2 : ((((b.matchingPaths t).map Path.value).dedup.length == 2) = true)
  · rw [if_pos h2]
    exact List.filter_sublist b.paths
  · rw [if_neg h2]
    exact List.filter_sublist b.paths

theorem candidatePaths_value {b : Board} {t : Tile} {cv : Nat} {q : Path}
    (hcv : cv = t.x ∨ cv = t.y) (hq : q ∈ b.candidatePaths t cv) :
    q.value = t.x ∨ q.value = t.y := by
  unfold Board.candidatePaths at hq
  by_cases h2 : ((((b.matchingPaths t).map Path.value).dedup.length == 2) = true)
  · rw [if_pos h2] at hq
    have := (List.mem_filter.mp hq).2
    simp only [beq_iff_eq] at this
    omega
  · rw [if_neg h2] at hq
    exact (mem_matchingPaths.mp hq).2

theorem candidatePaths_ne_nil {b : Board} {t : Tile} {cv : Nat}
    (hplay : ∃ p ∈ b.paths, p.value = t.x ∨ p.value = t.y)
    (hcv : cv = t.x ∨ cv = t.y) :
    b.candidatePaths t cv ≠ [] := by
  unfold Board.candidatePaths
  by_cases h2 : ((((b.matchingPaths t).map Path.value).dedup.length == 2) = true)
  · rw [if_pos h2]
    have hlen : ((b.matchingPaths t).map Path.value).dedup.length = 2 := by
      simpa using h2
    have hsub : ∀ v ∈ ((b.matchingPaths t).map Path.value).dedup,
        v = t.x ∨ v = t.y := by
      intro v hv
      obtain ⟨q, hq, hqv⟩ := List.mem_map.mp (List.mem_dedup.mp hv)
      have := (mem_matchingPaths.mp hq).2
      omega
    have hnd := List.nodup_dedup ((b.matchingPaths t).map Path.value)
    have hmem : cv ∈ ((b.matchingPaths t).map Path.value).dedup := by
      obtain ⟨v₁, v₂, hvs⟩ := List.length_eq_two.mp hlen
      rw [hvs] at hnd hsub ⊢
      have hne : v₁ ≠ v₂ := by simpa using hnd
      have h₁ := hsub v₁ (by simp)
      have h₂ := hsub v₂ (by simp)
      simp only [List.mem_cons, List.not_mem_nil, or_false]
      omega
    obtain ⟨q, hq, hqv⟩ := List.mem_map.mp (List.mem_dedup.mp hmem)
    intro hnil
    have : q ∈ b.paths.filter (fun p => cv == p.value) := by
      rw [List.mem_filter]
      exact ⟨(mem_matchingPaths.mp hq).1, by simp [hqv]⟩
    rw [hnil] at this
    cases this
  · rw [if_neg h2]
    obtain ⟨p, hp, hv⟩ := hplay
    intro hnil
    have : p ∈ b.matchingPaths t := mem_matchingPaths.mpr ⟨hp, by omega⟩
    rw [hnil] at this
    cases this

/-! ### The central description of a successful `process_new_tile` -/

theorem processNewTile_spec (b : Board) (t : Tile) (cv : Nat)
    (hwf : b.PathsWF)
    (hplay : ∃ p ∈ b.paths, p.value = t.x ∨ p.value = t.y)
    (hcv : cv = t.x ∨ cv = t.y) :
    ∃ old : Path, old ∈ b.candidatePaths t cv ∧
      (old.value = t.x ∨ old.value = t.y) ∧
      old.index < b.paths.length ∧
      b.paths.get? old.index = some old ∧
      b.processNewTile t cv =
        some ⟨b.tiles ++ [t],
              b.paths.set old.index
                ⟨old.index, if t.x = old.value then t.y else t.x,
                 old.depth + 1⟩⟩ ∧
      (∀ q ∈ b.candidatePaths t cv, old.depth ≤ q.depth) ∧
      (∀ q ∈ b.candidatePaths t cv, q.depth = old.depth → old.index ≤ q.index) := by
  have hne := candidatePaths_ne_nil hplay hcv
  cases hfb : firstBest depthLE (b.candidatePaths t cv) with
  | none => exact absurd (firstBest_eq_none.mp hfb) hne
  | some first =>
    obtain ⟨l₁, l₂, hsplit, h₁, h₂⟩ := firstBest_depth_split _ first hfb
    have hmem : first ∈ b.candidatePaths t cv := by
      rw [hsplit]; exact List.mem_append_right _ (List.mem_cons_self _ _)
    have hval := candidatePaths_value hcv hmem
    have hpaths : first ∈ b.paths := candidatePaths_subset hmem
    obtain ⟨hlt, hget⟩ := pathsWF_get? hwf hpaths
    have hpw : (b.candidatePaths t cv).Pairwise (fun p q => p.index < q.index) :=
      List.Pairwise.sublist (candidatePaths_sublist b t cv) (pathsWF_pairwise hwf)
    refine ⟨first, hmem, hval, hlt, hget, ?_, ?_, ?_⟩
    · unfold Board.processNewTile
      rw [head?_insertionSort, hfb]
      simp only [hget, beq_iff_eq]
    · intro q hq
      rw [hsplit] at hq
      rcases List.mem_append.mp hq with hq1 | hq2
      · exact le_of_lt (h₁ q hq1)
      · rcases List.mem_cons.mp hq2 with rfl | hq2
        · exact le_refl _
        · exact h₂ q hq2
    · intro q hq hdq
      rw [hsplit] at hq hpw
      rcases List.mem_append.mp hq with hq1 | hq2
      · have := h₁ q hq1
        omega
      · rcases List.mem_cons.mp hq2 with rfl | hq2
        · exact le_refl _
        · have := List.rel_of_pairwise_cons (List.pairwise_append.mp hpw).2.1 hq2
          exact le_of_lt this

end Dominoes

namespace Dominoes

/-! ### Claim C1: tile conservation -/

/-- **C1**: within a round, after the opening move, every draw and every play
preserves the tiles in play: the multiset (hence also the total count) of
tiles summed over all hands, the stock and the board's placed-tile list is
unchanged — a draw moves exactly one tile from the stock to a hand, a play
moves exactly one tile from a hand to the board, and no tile is created,
duplicated or lost. -/
theorem c1_tile_conservation {s s' : GameState} (h : RoundStep s s') :
    s'.allTiles = s.allTiles ∧ s'.totalTiles = s.totalTiles := by
  cases h with
  | draw i p stock' p' hget hdraw =>
    obtain ⟨t, hstock, hhand⟩ := drawOneTileFromStock_eq_some hdraw
    constructor
    · unfold GameState.allTiles
      simp only
      have key := mapSum_set (fun q => (q.hand : Multiset Tile)) s.players i p p' hget
      have hph : (p'.hand : Multiset Tile)
          = (p.hand : Multiset Tile) + (([t] : List Tile) : Multiset Tile) := by
        rw [hhand, ← Multiset.coe_add]
      have hst : (s.stock : Multiset Tile)
          = (stock' : Multiset Tile) + (([t] : List Tile) : Multiset Tile) := by
        rw [hstock, ← Multiset.coe_add]
      apply add_right_cancel (b := (p.hand : Multiset Tile))
      calc ((s.players.set i p').map (fun q => (q.hand : Multiset Tile))).sum
            + (stock' : Multiset Tile) + (s.board.tiles : Multiset Tile)
            + (p.hand : Multiset Tile)
          = ((s.players.set i p').map (fun q => (q.hand : Multiset Tile))).sum
            + (p.hand : Multiset Tile) + (stock' : Multiset Tile)
            + (s.board.tiles : Multiset Tile) := by abel
        _ = (s.players.map (fun q => (q.hand : Multiset Tile))).sum
            + (p'.hand : Multiset Tile) + (stock' : Multiset Tile)
            + (s.board.tiles : Multiset Tile) := by rw [key]
        _ = (s.players.map (fun q => (q.hand : Multiset Tile))).sum
            + ((stock' : Multiset Tile) + (([t] : List Tile) : Multiset Tile))
            + (s.board.tiles : Multiset Tile) + (p.hand : Multiset Tile) := by
              rw [hph]; abel
        _ = (s.players.map (fun q => (q.hand : Multiset Tile))).sum
            + (s.stock : Multiset Tile) + (s.board.tiles : Multiset Tile)
            + (p.hand : Multiset Tile) := by rw [← hst]
    · unfold GameState.totalTiles
      simp only
      have key : ((s.players.set i p').map (fun q => q.hand.length)).sum + p.hand.length
          = (s.players.map (fun q => q.hand.length)).sum + p'.hand.length :=
        mapSum_set (fun q => q.hand.length) s.players i p p' hget
      have h1 : p'.hand.length = p.hand.length + 1 := by rw [hhand]; simp
      have h2 : s.stock.length = stock'.length + 1 := by rw [hstock]; simp
      omega
  | play i p m t p' cv b' hget htake hproc =>
    obtain ⟨hmem, ht, hp'⟩ := takeTileOutOfHand_eq_some htake
    subst ht
    obtain ⟨first, chosen, hh, hg, hb'⟩ := processNewTile_eq_some hproc
    have hbt : b'.tiles = s.board.tiles ++ [t] := by rw [hb']
    have hperm : p.hand.Perm (t :: p.hand.erase t) := perm_cons_erase_beq hmem
    have hph : (p.hand : Multiset Tile)
        = (p'.hand : Multiset Tile) + (([t] : List Tile) : Multiset Tile) := by
      rw [hp']
      simp only
      have h1 : (p.hand : Multiset Tile)
          = ((t :: p.hand.erase t : List Tile) : Multiset Tile) :=
        Multiset.coe_eq_coe.mpr hperm
      rw [h1, Multiset.coe_add, Multiset.coe_eq_coe]
      exact @List.perm_append_comm Tile [t] (p.hand.erase t)
    constructor
    · unfold GameState.allTiles
      simp only
      have key := mapSum_set (fun q => (q.hand : Multiset Tile)) s.players i p p' hget
      have hbm : (b'.tiles : Multiset Tile)
          = (s.board.tiles : Multiset Tile) + (([t] : List Tile) : Multiset Tile) := by
        rw [hbt, ← Multiset.coe_add]
      apply add_right_cancel (b := (p'.hand : Multiset Tile))
      calc ((s.players.set i p').map (fun q => (q.hand : Multiset Tile))).sum
            + (s.stock : Multiset Tile) + (b'.tiles : Multiset Tile)
            + (p'.hand : Multiset Tile)
          = ((s.players.set i p').map (fun q => (q.hand : Multiset Tile))).sum
            + ((p'.hand : Multiset Tile) + (([t] : List Tile) : Multiset Tile))
            + (s.stock : Multiset Tile) + (s.board.tiles : Multiset Tile) := by
              rw [hbm]; abel
        _ = ((s.players.set i p').map (fun q => (q.hand : Multiset Tile))).sum
            + (p.hand : Multiset Tile)
            + (s.stock : Multiset Tile) + (s.board.tiles : Multiset Tile) := by
              rw [← hph]
        _ = (s.players.map (fun q => (q.hand : Multiset Tile))).sum
            + (p'.hand : Multiset Tile)
            + (s.stock : Multiset Tile) + (s.board.tiles : Multiset Tile) := by
              rw [key]
        _ = (s.players.map (fun q => (q.hand : Multiset Tile))).sum
            + (s.stock : Multiset Tile) + (s.board.tiles : Multiset Tile)
            + (p'.hand : Multiset Tile) := by abel
    · unfold GameState.totalTiles
      simp only
      have key : ((s.players.set i p').map (fun q => q.hand.length)).sum + p.hand.length
          = (s.players.map (fun q => q.hand.length)).sum + p'.hand.length :=
        mapSum_set (fun q => q.hand.length) s.players i p p' hget
      have h1 : p'.hand.length + 1 = p.hand.length := by
        rw [hp']
        simp only
        have := List.length_erase_of_mem hmem
        have hpos : 0 < p.hand.length := List.length_pos.mpr (List.ne_nil_of_mem hmem)
        omega
      have h2 : b'.tiles.length = s.board.tiles.length + 1 := by rw [hbt]; simp
      omega

end Dominoes

namespace Dominoes

/-! ### Claims C2, C7, C10: frame effect, path selection, path-list invariant -/

/-- **C2**: for every call to `process_new_tile` with a playable tile and a
connecting-value decision naming one of its faces, exactly one path of the
board is modified: its value becomes the tile's unmatched face and its depth
grows by exactly 1; every other path is unchanged, and the tile is appended
to the placed-tile list. -/
theorem c2_processNewTile_frame (b : Board) (t : Tile) (cv : Nat)
    (hwf : b.PathsWF)
    (hplay : ∃ p ∈ b.paths, p.value = t.x ∨ p.value = t.y)
    (hcv : cv = t.x ∨ cv = t.y) :
    ∃ b' i old, b.processNewTile t cv = some b' ∧
      i < b.paths.length ∧
      b.paths.get? i = some old ∧
      (old.value = t.x ∨ old.value = t.y) ∧
      b'.paths.get? i =
        some ⟨old.index, if t.x = old.value then t.y else t.x, old.depth + 1⟩ ∧
      (∀ j, j ≠ i → b'.paths.get? j = b.paths.get? j) ∧
      b'.paths.length = b.paths.length ∧
      b'.tiles = b.tiles ++ [t] := by
  obtain ⟨old, hmem, hval, hlt, hget, heq, hmin, hidx⟩ :=
    processNewTile_spec b t cv hwf hplay hcv
  refine ⟨_, old.index, old, heq, hlt, hget, hval, ?_, ?_, ?_, rfl⟩
  · exact List.get?_set_eq_of_lt _ hlt
  · intro j hj
    exact List.get?_set_ne _ _ (fun hh => hj hh.symm)
  · simp [List.length_set]

/-- **C7**: among the candidate paths remaining after any connecting-value
filtering, the path the tile extends is one of lowest depth, and among the
lowest-depth candidates it is the one with the smallest index (the
first-created path). -/
theorem c7_lowest_depth_first_index (b : Board) (t : Tile) (cv : Nat)
    (hwf : b.PathsWF)
    (hplay : ∃ p ∈ b.paths, p.value = t.x ∨ p.value = t.y)
    (hcv : cv = t.x ∨ cv = t.y) :
    ∃ old, old ∈ b.candidatePaths t cv ∧
      b.processNewTile t cv =
        some ⟨b.tiles ++ [t],
              b.paths.set old.index
                ⟨old.index, if t.x = old.value then t.y else t.x,
                 old.depth + 1⟩⟩ ∧
      (∀ q ∈ b.candidatePaths t cv, old.depth ≤ q.depth) ∧
      (∀ q ∈ b.candidatePaths t cv, q.depth = old.depth → old.index ≤ q.index) := by
  obtain ⟨old, hmem, hval, hlt, hget, heq, hmin, hidx⟩ :=
    processNewTile_spec b t cv hwf hplay hcv
  exact ⟨old, hmem, heq, hmin, hidx⟩

theorem pathsWF_iff_get? (b : Board) :
    b.PathsWF ↔ ∀ i p, b.paths.get? i = some p → p.index = i := by
  constructor
  · intro hwf i p hg
    obtain ⟨hi, hgeteq⟩ := List.get?_eq_some.mp hg
    rw [← hgeteq]
    exact hwf i hi
  · intro h i hi
    exact h i _ (List.get?_eq_get hi)

/-- **C10**: a board opened with `add_starting_tile` has 4 paths for a double
opening tile and 2 otherwise, with each path's `index` equal to its position;
`process_new_tile` never adds or removes paths and preserves the
index-equals-position invariant; and under that invariant, looking up the
path list at any member path's `index` yields that same path. -/
theorem c10_path_list_invariant :
    (∀ t : Tile,
      ((Board.mk [] []).addStartingTile t).paths.length
          = (if t.isDouble then 4 else 2) ∧
      ((Board.mk [] []).addStartingTile t).PathsWF)
    ∧ (∀ (b : Board) (t : Tile) (cv : Nat) (b' : Board),
        b.processNewTile t cv = some b' →
        b'.paths.length = b.paths.length ∧ (b.PathsWF → b'.PathsWF))
    ∧ (∀ b : Board, b.PathsWF →
        ∀ p ∈ b.paths, b.paths.get? p.index = some p) := by
  refine ⟨?_, ?_, ?_⟩
  · intro t
    cases hd : t.isDouble with
    | true =>
      refine ⟨by simp [Board.addStartingTile, hd], ?_⟩
      rw [pathsWF_iff_get?]
      intro i p hg
      simp only [Board.addStartingTile, hd, if_true, List.nil_append] at hg
      rcases i with _ | _ | _ | _ | i <;>
        simp only [List.get?] at hg <;>
        first
          | (rw [← Option.some.inj hg])
          | cases hg
    | false =>
      refine ⟨by simp [Board.addStartingTile, hd], ?_⟩
      rw [pathsWF_iff_get?]
      intro i p hg
      simp only [Board.addStartingTile, hd, if_false, List.nil_append] at hg
      rcases i with _ | _ | i <;>
        simp only [List.get?] at hg <;>
        first
          | (rw [← Option.some.inj hg])
          | cases hg
  · intro b t cv b' h
    obtain ⟨first, chosen, hh, hg, hb'⟩ := processNewTile_eq_some h
    subst hb'
    refine ⟨by simp [List.length_set], ?_⟩
    intro hwf
    have hwf' := (pathsWF_iff_get? b).mp hwf
    rw [pathsWF_iff_get?]
    intro i p hgi
    simp only at hgi
    have hchosen_idx : chosen.index = first.index := hwf' first.index chosen hg
    by_cases hi : i = first.index
    · subst hi
      have hlt : first.index < b.paths.length := by
        have := List.get?_eq_some.mp hg
        exact this.1
      rw [List.get?_set_eq_of_lt _ hlt] at hgi
      rw [← Option.some.inj hgi]
      exact hchosen_idx
    · rw [List.get?_set_ne _ _ (fun hh => hi hh.symm)] at hgi
      exact hwf' i p hgi
  · intro b hwf p hp
    exact (pathsWF_get? hwf hp).2

end Dominoes

namespace Dominoes

/-! ### Claims C5, C6, C8, C9 -/

/-- **C5** (documenting the code bug): the goat check compares the score to
the literal `101` and never reads the configured `goat_score`: with
`goat_score` configured to 50, a player whose cumulative score 60 has reached
the configured threshold is not a goat and the match does not end; in
general the match ends exactly when some score reaches the hardcoded 101. -/
theorem c5_goat_threshold_hardcoded :
    (Config.mk 7 5 10 50).goatScore ≤ 60 ∧
    Player.isAGoat (Player.mk [] 60 true) = false ∧
    isGameOver [Player.mk [] 60 true] = false ∧
    (∀ players : List Player, isGameOver players = true ↔ ∃ p ∈ players, 101 ≤ p.score) := by
  refine ⟨by decide, rfl, rfl, ?_⟩
  intro players
  simp [isGameOver, List.any_eq_true, Player.isAGoat]

/-- **C6** (counterexample): tile equality as implemented compares the faces
in stored order, so tile `(3,4)` is not equal to tile `(4,3)`, and the
hand-membership check of `choose_tile` rejects a move given with the faces
reversed even though the hand holds that tile. -/
theorem c6_counterexample :
    Tile.beq ⟨3, 4⟩ ⟨4, 3⟩ = false ∧
    Player.chooseTile [⟨3, 4⟩] [⟨3, 4⟩] [⟨4, 3⟩] = none := by
  constructor <;> rfl

/-- **C6** (amended): tile equality is ordered: `(a,b)` equals `(b,a)` only
when `a = b`; two tiles are equal exactly when both faces agree in stored
order, and the membership tests validating a chosen move accept it only with
the faces in the stored order. -/
theorem c6_amended_ordered_equality :
    (∀ t u : Tile, Tile.beq t u = true ↔ (t.x = u.x ∧ t.y = u.y)) ∧
    (∀ a b : Nat, Tile.beq ⟨a, b⟩ ⟨b, a⟩ = true ↔ a = b) ∧
    (∀ (hand : List Tile) (m : Tile), hand.contains m = true ↔ m ∈ hand) := by
  refine ⟨?_, ?_, fun hand m => tile_contains_iff hand m⟩
  · intro t u
    simp [Tile.beq]
  · intro a b
    rw [Tile.beq]
    simp only [Bool.and_eq_true, beq_iff_eq]
    constructor
    · rintro ⟨hab, _⟩; exact hab
    · rintro rfl; exact ⟨rfl, rfl⟩

/-- **C8**: at end of round each player's score grows by the sum of the
weights of the tiles left in their hand, except that an empty hand adds 0 and
a non-empty hand of total weight 0 adds the configured `points_for_zero_zero`
penalty instead. -/
theorem c8_round_scoring (cfg : Config) (players : List Player) (i : Nat)
    (h : i < players.length) :
    (writeDownScores cfg players).get? i =
      some { players.get ⟨i, h⟩ with
             score := (players.get ⟨i, h⟩).score +
               (if (players.get ⟨i, h⟩).hand = [] then 0
                else if (players.get ⟨i, h⟩).getTotalWeight = 0 then
                  cfg.pointsForZeroZero
                else (players.get ⟨i, h⟩).getTotalWeight) } := by
  unfold writeDownScores
  rw [List.get?_map, List.get?_eq_get h]
  simp only [Option.map_some']
  generalize players.get ⟨i, h⟩ = q
  congr 1
  by_cases h1 : q.hand = []
  · have hw : q.getTotalWeight = 0 := by
      rw [Player.getTotalWeight, h1]; rfl
    simp [Player.isEmptyHand, h1, hw]
  · by_cases h2 : q.getTotalWeight = 0
    · simp [Player.isEmptyHand, h1, h2, List.isEmpty_iff]
    · simp [Player.isEmptyHand, h1, h2, List.isEmpty_iff]

theorem makeMoveStep_eq_of_get {s : GameState} {i : Nat} {p : Player}
    (hget : s.players.get? i = some p) (inputs : List Tile) (cv : Nat) :
    makeMoveStep s i inputs cv =
      match Player.chooseTile p.hand (getSuitableTiles s.board p.hand) inputs with
      | none => none
      | some m =>
        match p.takeTileOutOfHand m with
        | none => none
        | some (t, p') =>
          match s.board.processNewTile t cv with
          | none => none
          | some b' => some { s with players := s.players.set i p', board := b' } := by
  unfold makeMoveStep
  rw [hget]

/-- **C9**: an interactive player's attempt naming a tile absent from their
hand or from the legal set is rejected locally: the accepted move is always
a member of both the hand and the legal set, and dropping a rejected attempt
from the input stream leaves the whole turn outcome — hands, board, stock and
player order — exactly the same, with a new decision requested from the same
player. -/
theorem c9_illegal_move_rejected :
    (∀ (hand suitable inputs : List Tile) (m : Tile),
        Player.chooseTile hand suitable inputs = some m →
        m ∈ hand ∧ m ∈ suitable) ∧
    (∀ (s : GameState) (i : Nat) (p : Player),
        s.players.get? i = some p →
        ∀ (m : Tile) (rest : List Tile) (cv : Nat),
          (m ∉ p.hand ∨ m ∉ getSuitableTiles s.board p.hand) →
          makeMoveStep s i (m :: rest) cv = makeMoveStep s i rest cv) := by
  constructor
  · intro hand suitable inputs
    induction inputs with
    | nil => intro m h; cases h
    | cons a rest ih =>
      intro m h
      rw [Player.chooseTile] at h
      cases h1 : hand.contains a with
      | false =>
        rw [h1] at h
        simp only [Bool.not_false, if_true] at h
        exact ih m h
      | true =>
        rw [h1] at h
        simp only [Bool.not_true, if_false] at h
        cases h2 : suitable.contains a with
        | false =>
          rw [h2] at h
          simp only [Bool.not_false, if_true] at h
          exact ih m h
        | true =>
          rw [h2] at h
          simp only [Bool.not_true, if_false] at h
          have hma : a = m := Option.some.inj h
          subst hma
          exact ⟨(tile_contains_iff _ _).mp h1, (tile_contains_iff _ _).mp h2⟩
  · intro s i p hget m rest cv hrej
    have hch : Player.chooseTile p.hand (getSuitableTiles s.board p.hand) (m :: rest)
        = Player.chooseTile p.hand (getSuitableTiles s.board p.hand) rest := by
      rw [Player.chooseTile]
      rcases hrej with hr | hr
      · cases hc : p.hand.contains m with
        | false => simp
        | true => exact absurd ((tile_contains_iff _ _).mp hc) hr
      · cases hc : p.hand.contains m with
        | false => simp
        | true =>
          simp only [Bool.not_true, if_false]
          cases hc2 : (getSuitableTiles s.board p.hand).contains m with
          | false => simp
          | true => exact absurd ((tile_contains_iff _ _).mp hc2) hr
    rw [makeMoveStep_eq_of_get hget, makeMoveStep_eq_of_get hget, hch]

end Dominoes

namespace Dominoes

/-! ### Opening-move arbitration machinery -/

theorem findIdx?_holder {players : List Player} {d : Tile}
    (h : ∃ p ∈ players, d ∈ p.hand) :
    ∃ i p, players.findIdx? (fun p => p.hand.contains d) = some i ∧
      players.get? i = some p ∧ d ∈ p.hand := by
  induction players with
  | nil => obtain ⟨p, hp, _⟩ := h; cases hp
  | cons q rest ih =>
    by_cases hq : d ∈ q.hand
    · refine ⟨0, q, ?_, rfl, hq⟩
      rw [List.findIdx?_cons, if_pos ((tile_contains_iff _ _).mpr hq)]
    · have h' : ∃ p ∈ rest, d ∈ p.hand := by
        obtain ⟨p, hp, hd⟩ := h
        rcases List.mem_cons.mp hp with rfl | hp
        · exact absurd hd hq
        · exact ⟨p, hp, hd⟩
      obtain ⟨i, p, hfi, hgi, hdi⟩ := ih h'
      refine ⟨i + 1, p, ?_, by simpa using hgi, hdi⟩
      rw [List.findIdx?_cons, if_neg, List.findIdx?_succ, hfi]
      · rfl
      · intro hc
        exact hq ((tile_contains_iff _ _).mp hc)

theorem findIdx?_no_holder {players : List Player} {d : Tile}
    (h : ∀ p ∈ players, d ∉ p.hand) :
    players.findIdx? (fun p => p.hand.contains d) = none := by
  rw [List.findIdx?_eq_none_iff]
  intro p hp
  cases hc : p.hand.contains d with
  | false => rfl
  | true => exact absurd ((tile_contains_iff _ _).mp hc) (h p hp)

theorem findDoubleHolder_skip {players : List Player} {ds₁ ds₂ : List Tile}
    (h : ∀ d ∈ ds₁, ∀ p ∈ players, d ∉ p.hand) :
    findDoubleHolder players (ds₁ ++ ds₂) = findDoubleHolder players ds₂ := by
  induction ds₁ with
  | nil => rfl
  | cons d rest ih =>
    rw [List.cons_append, findDoubleHolder,
      findIdx?_no_holder (h d (by simp))]
    exact ih (fun e he p hp => h e (by simp [he]) p hp)

theorem findDoubleHolder_hit {players : List Player} {d : Tile} {ds : List Tile}
    (h : ∃ p ∈ players, d ∈ p.hand) :
    ∃ i p, findDoubleHolder players (d :: ds) = some (d, i) ∧
      players.get? i = some p ∧ d ∈ p.hand := by
  obtain ⟨i, p, hfi, hgi, hdi⟩ := findIdx?_holder h
  refine ⟨i, p, ?_, hgi, hdi⟩
  rw [findDoubleHolder, hfi]

theorem findDoubleHolder_split (players : List Player) (ds₁ : List Tile)
    (d : Tile) (ds₂ : List Tile)
    (hskip : ∀ e ∈ ds₁, ∀ p ∈ players, e ∉ p.hand)
    (hhold : ∃ p ∈ players, d ∈ p.hand) :
    ∃ i p, findDoubleHolder players (ds₁ ++ d :: ds₂) = some (d, i) ∧
      players.get? i = some p ∧ d ∈ p.hand := by
  obtain ⟨i, p, hfd, hget, hmem⟩ := @findDoubleHolder_hit players d ds₂ hhold
  exact ⟨i, p, (findDoubleHolder_skip hskip).trans hfd, hget, hmem⟩

theorem makeOpeningMove_of_findDouble {players : List Player} {b : Board}
    {d : Tile} {i : Nat} {p : Player}
    (hfd : findDoubleHolder players openingDoubles = some (d, i))
    (hget : players.get? i = some p) (hmem : d ∈ p.hand) :
    makeOpeningMove players b =
      some (players.eraseIdx i ++ [{ p with hand := p.hand.erase d }],
            b.addStartingTile d) := by
  unfold makeOpeningMove
  rw [hfd]
  simp only [hget, Player.takeTileOutOfHand,
    (tile_contains_iff p.hand d).mpr hmem, if_true]

/-- **C3**: if some player holds a non-zero double, the opening tile is the
lowest-valued non-zero double held across all hands (scanned 1-1 up to 6-6,
players in current order); if no player holds a non-zero double but some
player holds 0-0, the opening tile is 0-0. -/
theorem c3_opening_double_priority (players : List Player) (b : Board) :
    (∀ m : Nat, 1 ≤ m → m ≤ 6 →
      (∃ p ∈ players, Tile.mk m m ∈ p.hand) →
      (∀ k, 1 ≤ k → k < m → ∀ p ∈ players, Tile.mk k k ∉ p.hand) →
      ∃ ps', makeOpeningMove players b = some (ps', b.addStartingTile ⟨m, m⟩)) ∧
    ((∀ k, 1 ≤ k → k ≤ 6 → ∀ p ∈ players, Tile.mk k k ∉ p.hand) →
      (∃ p ∈ players, Tile.mk 0 0 ∈ p.hand) →
      ∃ ps', makeOpeningMove players b = some (ps', b.addStartingTile ⟨0, 0⟩)) := by
  constructor
  · intro m h1 h6 hhold hnone
    interval_cases m
    · obtain ⟨i, p, hfd, hget, hmem⟩ :=
        findDoubleHolder_split players [] ⟨1, 1⟩
          [⟨2, 2⟩, ⟨3, 3⟩, ⟨4, 4⟩, ⟨5, 5⟩, ⟨6, 6⟩, ⟨0, 0⟩]
          (by intro e he p hp; fin_cases he) hhold
      exact ⟨_, makeOpeningMove_of_findDouble hfd hget hmem⟩
    · obtain ⟨i, p, hfd, hget, hmem⟩ :=
        findDoubleHolder_split players [⟨1, 1⟩] ⟨2, 2⟩
          [⟨3, 3⟩, ⟨4, 4⟩, ⟨5, 5⟩, ⟨6, 6⟩, ⟨0, 0⟩]
          (by intro e he p hp; fin_cases he <;>
            exact hnone _ (by omega) (by omega) p hp) hhold
      exact ⟨_, makeOpeningMove_of_findDouble hfd hget hmem⟩
    · obtain ⟨i, p, hfd, hget, hmem⟩ :=
        findDoubleHolder_split players [⟨1, 1⟩, ⟨2, 2⟩] ⟨3, 3⟩
          [⟨4, 4⟩, ⟨5, 5⟩, ⟨6, 6⟩, ⟨0, 0⟩]
          (by intro e he p hp; fin_cases he <;>
            exact hnone _ (by omega) (by omega) p hp) hhold
      exact ⟨_, makeOpeningMove_of_findDouble hfd hget hmem⟩
    · obtain ⟨i, p, hfd, hget, hmem⟩ :=
        findDoubleHolder_split players [⟨1, 1⟩, ⟨2, 2⟩, ⟨3, 3⟩] ⟨4, 4⟩
          [⟨5, 5⟩, ⟨6, 6⟩, ⟨0, 0⟩]
          (by intro e he p hp; fin_cases he <;>
            exact hnone _ (by omega) (by omega) p hp) hhold
      exact ⟨_, makeOpeningMove_of_findDouble hfd hget hmem⟩
    · obtain ⟨i, p, hfd, hget, hmem⟩ :=
        findDoubleHolder_split players [⟨1, 1⟩, ⟨2, 2⟩, ⟨3, 3⟩, ⟨4, 4⟩] ⟨5, 5⟩
          [⟨6, 6⟩, ⟨0, 0⟩]
          (by intro e he p hp; fin_cases he <;>
            exact hnone _ (by omega) (by omega) p hp) hhold
      exact ⟨_, makeOpeningMove_of_findDouble hfd hget hmem⟩
    · obtain ⟨i, p, hfd, hget, hmem⟩ :=
        findDoubleHolder_split players [⟨1, 1⟩, ⟨2, 2⟩, ⟨3, 3⟩, ⟨4, 4⟩, ⟨5, 5⟩] ⟨6, 6⟩
          [⟨0, 0⟩]
          (by intro e he p hp; fin_cases he <;>
            exact hnone _ (by omega) (by omega) p hp) hhold
      exact ⟨_, makeOpeningMove_of_findDouble hfd hget hmem⟩
  · intro hnone hhold
    obtain ⟨i, p, hfd, hget, hmem⟩ :=
      findDoubleHolder_split players
        [⟨1, 1⟩, ⟨2, 2⟩, ⟨3, 3⟩, ⟨4, 4⟩, ⟨5, 5⟩, ⟨6, 6⟩] ⟨0, 0⟩ []
        (by intro e he p hp; fin_cases he <;>
          exact hnone _ (by omega) (by omega) p hp) hhold
    exact ⟨_, makeOpeningMove_of_findDouble hfd hget hmem⟩

end Dominoes

namespace Dominoes

/-! ### The opening fallback (no doubles anywhere) -/

theorem handMaxXY_eq_none {l : List Tile} : handMaxXY l = none ↔ l = [] := by
  cases l with
  | nil => simp [handMaxXY]
  | cons t ts =>
    simp only [handMaxXY]
    cases handMaxXY ts <;> simp

theorem handMaxXY_mem : ∀ {l : List Tile} {m : Tile}, handMaxXY l = some m → m ∈ l := by
  intro l
  induction l with
  | nil => intro m h; cases h
  | cons t ts ih =>
    intro m h
    rw [handMaxXY] at h
    cases hm : handMaxXY ts with
    | none =>
      rw [hm] at h
      have h' : some t = some m := h
      rw [← Option.some.inj h']
      exact List.mem_cons_self _ _
    | some c =>
      rw [hm] at h
      have h' : some (if t.x < c.x ∨ (t.x = c.x ∧ t.y < c.y) then c else t) = some m := h
      by_cases hc : t.x < c.x ∨ (t.x = c.x ∧ t.y < c.y)
      · rw [if_pos hc] at h'
        rw [← Option.some.inj h']
        exact List.mem_cons_of_mem _ (ih hm)
      · rw [if_neg hc] at h'
        rw [← Option.some.inj h']
        exact List.mem_cons_self _ _

theorem firstBest_rankGE_eq_handMaxXY (l : List Tile) :
    firstBest rankGE l = handMaxXY l := by
  induction l with
  | nil => rfl
  | cons t ts ih =>
    cases hm : handMaxXY ts with
    | none =>
      have h1 : firstBest rankGE ts = none := by rw [ih, hm]
      rw [firstBest, h1, handMaxXY, hm]
    | some c =>
      have h1 : firstBest rankGE ts = some c := by rw [ih, hm]
      rw [firstBest, h1, handMaxXY, hm]
      show some (if rankGE t c then t else c)
          = some (if t.x < c.x ∨ (t.x = c.x ∧ t.y < c.y) then c else t)
      by_cases hc : t.x < c.x ∨ (t.x = c.x ∧ t.y < c.y)
      · rw [if_pos hc, if_neg]
        unfold rankGE
        omega
      · rw [if_neg hc, if_pos]
        unfold rankGE
        omega

theorem getHighestRankTile_eq (p : Player) :
    p.getHighestRankTile = handMaxXY p.hand := by
  rw [Player.getHighestRankTile, head?_insertionSort, firstBest_rankGE_eq_handMaxXY]

theorem gtb_iff (t u : Tile) : t.gtb u = true ↔ (u.x ≤ t.x ∧ u.y < t.y) := by
  simp [Tile.gtb]

theorem fallbackScan_eq_spec : ∀ (ps : List Player) (k : Nat) (best : Tile) (bi : Nat),
    fallbackScan ps k best bi = specFallbackScan ps k best bi := by
  intro ps
  induction ps with
  | nil => intro k best bi; rfl
  | cons p rest ih =>
    intro k best bi
    rw [fallbackScan, specFallbackScan, getHighestRankTile_eq]
    cases hm : handMaxXY p.hand with
    | none => rfl
    | some c =>
      show (if c.gtb best then fallbackScan rest (k + 1) c k
            else fallbackScan rest (k + 1) best bi)
          = (if best.x ≤ c.x ∧ best.y < c.y then specFallbackScan rest (k + 1) c k
            else specFallbackScan rest (k + 1) best bi)
      by_cases hc : best.x ≤ c.x ∧ best.y < c.y
      · rw [if_pos ((gtb_iff c best).mpr hc), if_pos hc]
        exact ih (k + 1) c k
      · rw [if_neg (fun hh => hc ((gtb_iff c best).mp hh)), if_neg hc]
        exact ih (k + 1) best bi

theorem specFallbackScan_some : ∀ (ps : List Player) (k : Nat) (best : Tile) (bi : Nat),
    (∀ p ∈ ps, p.hand ≠ []) →
    ∃ t i, specFallbackScan ps k best bi = some (t, i) := by
  intro ps
  induction ps with
  | nil => intro k best bi _; exact ⟨best, bi, rfl⟩
  | cons p rest ih =>
    intro k best bi hne
    cases hm : handMaxXY p.hand with
    | none =>
      exact absurd (handMaxXY_eq_none.mp hm) (hne p (List.mem_cons_self _ _))
    | some c =>
      have hrest : ∀ q ∈ rest, q.hand ≠ [] :=
        fun q hq => hne q (List.mem_cons_of_mem _ hq)
      rw [specFallbackScan, hm]
      by_cases hc : best.x ≤ c.x ∧ best.y < c.y
      · have h' := ih (k + 1) c k hrest
        obtain ⟨t, i, hti⟩ := h'
        refine ⟨t, i, ?_⟩
        show (if best.x ≤ c.x ∧ best.y < c.y then specFallbackScan rest (k + 1) c k
              else specFallbackScan rest (k + 1) best bi) = some (t, i)
        rw [if_pos hc]
        exact hti
      · obtain ⟨t, i, hti⟩ := ih (k + 1) best bi hrest
        refine ⟨t, i, ?_⟩
        show (if best.x ≤ c.x ∧ best.y < c.y then specFallbackScan rest (k + 1) c k
              else specFallbackScan rest (k + 1) best bi) = some (t, i)
        rw [if_neg hc]
        exact hti

theorem specFallbackScan_mem : ∀ (ps : List Player) (k : Nat) (best : Tile)
    (bi : Nat) (t : Tile) (i : Nat),
    specFallbackScan ps k best bi = some (t, i) →
    (t = best ∧ i = bi) ∨ ∃ j p, ps.get? j = some p ∧ i = k + j ∧ t ∈ p.hand := by
  intro ps
  induction ps with
  | nil =>
    intro k best bi t i h
    have h' : some (best, bi) = some (t, i) := h
    obtain ⟨h1, h2⟩ := Prod.mk.injEq .. ▸ Option.some.inj h'
    exact Or.inl ⟨h1.symm, h2.symm⟩
  | cons p rest ih =>
    intro k best bi t i h
    rw [specFallbackScan] at h
    cases hm : handMaxXY p.hand with
    | none =>
      rw [hm] at h
      cases h
    | some c =>
      rw [hm] at h
      have h' : (if best.x ≤ c.x ∧ best.y < c.y then specFallbackScan rest (k + 1) c k
            else specFallbackScan rest (k + 1) best bi) = some (t, i) := h
      by_cases hc : best.x ≤ c.x ∧ best.y < c.y
      · rw [if_pos hc] at h'
        rcases ih (k + 1) c k t i h' with ⟨ht, hi⟩ | ⟨j, q, hgj, hij, hmq⟩
        · refine Or.inr ⟨0, p, rfl, by omega, ?_⟩
          rw [ht]
          exact handMaxXY_mem hm
        · exact Or.inr ⟨j + 1, q, by simpa using hgj, by omega, hmq⟩
      · rw [if_neg hc] at h'
        rcases ih (k + 1) best bi t i h' with hleft | ⟨j, q, hgj, hij, hmq⟩
        · exact Or.inl hleft
        · exact Or.inr ⟨j + 1, q, by simpa using hgj, by omega, hmq⟩

theorem no_doubles_findDoubleHolder_none {players : List Player}
    (hnd : ∀ p ∈ players, ∀ s ∈ p.hand, s.x ≠ s.y) :
    findDoubleHolder players openingDoubles = none := by
  have hgen : ∀ ds : List Tile, (∀ d ∈ ds, d.x = d.y) →
      findDoubleHolder players ds = none := by
    intro ds
    induction ds with
    | nil => intro _; rfl
    | cons d rest ih =>
      intro hds
      rw [findDoubleHolder, findIdx?_no_holder]
      · exact ih (fun e he => hds e (by simp [he]))
      · intro p hp hmem
        exact hnd p hp d hmem (hds d (by simp))
  exact hgen openingDoubles (by decide)

end Dominoes

namespace Dominoes

/-- **C4** (counterexample): with no doubles dealt, player 1 holding only
`4 6` and player 2 holding only `5 6`, the spec's rank order says `5 6`
outranks `4 6`, yet the code opens with `4 6`: the cross-player comparison
`Tile.__gt__` requires both faces to beat the running best, so `5 6` does not
displace `4 6`. -/
theorem c4_counterexample :
    specRankGt ⟨5, 6⟩ ⟨4, 6⟩ ∧
    (makeOpeningMove [⟨[⟨4, 6⟩], 0, true⟩, ⟨[⟨5, 6⟩], 0, true⟩] ⟨[], []⟩).map
        (fun r => r.2.tiles) = some [⟨4, 6⟩] ∧
    (Tile.mk 4 6) ≠ ⟨5, 6⟩ := by
  refine ⟨?_, ?_, by decide⟩
  · unfold specRankGt
    decide
  · rfl

/-- **C4** (amended): for every deal in which no player holds a double, every
hand is non-empty and every tile's faces are stored in ascending order, the
opening tile is computed by scanning the players in their current order with
a running best tile initialised to `0 0`: each player's candidate is the
lexicographically-largest tile of their hand by `(first face, second face)`
(earliest on ties), and the candidate replaces the running best exactly when
its first face is ≥ and its second face is > the running best's; the final
best tile is removed from its holder's hand, opens the board, and its holder
is rotated to the end of the player order. -/
theorem c4_amended_opening_fallback (players : List Player) (b : Board)
    (hps : players ≠ [])
    (hnd : ∀ p ∈ players, ∀ s ∈ p.hand, s.x ≠ s.y)
    (hasc : ∀ p ∈ players, ∀ s ∈ p.hand, s.x ≤ s.y)
    (hne : ∀ p ∈ players, p.hand ≠ []) :
    ∃ t i p, specFallback players = some (t, i) ∧ players.get? i = some p ∧
      t ∈ p.hand ∧
      makeOpeningMove players b =
        some (players.eraseIdx i ++ [{ p with hand := p.hand.erase t }],
              b.addStartingTile t) := by
  cases players with
  | nil => exact absurd rfl hps
  | cons p₀ rest =>
    cases hm : handMaxXY p₀.hand with
    | none =>
      exact absurd (handMaxXY_eq_none.mp hm) (hne p₀ (List.mem_cons_self _ _))
    | some c₀ =>
      have hc₀mem : c₀ ∈ p₀.hand := handMaxXY_mem hm
      have hc₀y : 0 < c₀.y := by
        have h1 := hasc p₀ (List.mem_cons_self _ _) c₀ hc₀mem
        have h2 := hnd p₀ (List.mem_cons_self _ _) c₀ hc₀mem
        omega
      have hstep : specFallback (p₀ :: rest) = specFallbackScan rest 1 c₀ 0 := by
        rw [specFallback, specFallbackScan, hm]
        show (if (0 : Nat) ≤ c₀.x ∧ (0 : Nat) < c₀.y then specFallbackScan rest 1 c₀ 0
              else specFallbackScan rest 1 ⟨0, 0⟩ 0) = specFallbackScan rest 1 c₀ 0
        rw [if_pos ⟨Nat.zero_le _, hc₀y⟩]
      obtain ⟨t, i, hscan⟩ := specFallbackScan_some rest 1 c₀ 0
        (fun q hq => hne q (List.mem_cons_of_mem _ hq))
      have hfs : specFallback (p₀ :: rest) = some (t, i) := hstep.trans hscan
      have hloc : ∃ p, (p₀ :: rest).get? i = some p ∧ t ∈ p.hand := by
        rcases specFallbackScan_mem rest 1 c₀ 0 t i hscan with ⟨ht, hi⟩ | ⟨j, q, hgj, hij, hmq⟩
        · subst ht; subst hi
          exact ⟨p₀, rfl, hc₀mem⟩
        · refine ⟨q, ?_, hmq⟩
          rw [hij]
          show (p₀ :: rest).get? (1 + j) = some q
          rw [Nat.add_comm]
          simpa using hgj
      obtain ⟨p, hget, hmem⟩ := hloc
      refine ⟨t, i, p, hfs, hget, hmem, ?_⟩
      unfold makeOpeningMove
      rw [no_doubles_findDoubleHolder_none hnd]
      rw [fallbackScan_eq_spec]
      rw [show specFallbackScan (p₀ :: rest) 0 ⟨0, 0⟩ 0 = some (t, i) from hfs]
      simp only [hget, Player.takeTileOutOfHand,
        (tile_contains_iff p.hand t).mpr hmem, if_true]

end Dominoes

namespace Dominoes

/-! ### Concrete witnesses -/

theorem c1_witness :
    RoundStep ⟨[⟨[⟨1, 2⟩], 0, true⟩], [⟨3, 4⟩], ⟨[], []⟩⟩
        ⟨[⟨[⟨1, 2⟩, ⟨3, 4⟩], 0, true⟩], [], ⟨[], []⟩⟩ ∧
    GameState.totalTiles ⟨[⟨[⟨1, 2⟩, ⟨3, 4⟩], 0, true⟩], [], ⟨[], []⟩⟩
      = GameState.totalTiles ⟨[⟨[⟨1, 2⟩], 0, true⟩], [⟨3, 4⟩], ⟨[], []⟩⟩ := by
  have hstep : RoundStep ⟨[⟨[⟨1, 2⟩], 0, true⟩], [⟨3, 4⟩], ⟨[], []⟩⟩
      ⟨[⟨[⟨1, 2⟩, ⟨3, 4⟩], 0, true⟩], [], ⟨[], []⟩⟩ :=
    RoundStep.draw ⟨[⟨[⟨1, 2⟩], 0, true⟩], [⟨3, 4⟩], ⟨[], []⟩⟩ 0
      ⟨[⟨1, 2⟩], 0, true⟩ [] ⟨[⟨1, 2⟩, ⟨3, 4⟩], 0, true⟩ rfl rfl
  exact ⟨hstep, (c1_tile_conservation hstep).2⟩

theorem c2_witness :
    ∃ b' i old,
      Board.processNewTile ⟨[], [⟨0, 3, 1⟩, ⟨1, 5, 2⟩]⟩ ⟨3, 4⟩ 3 = some b' ∧
      i < (Board.mk [] [⟨0, 3, 1⟩, ⟨1, 5, 2⟩]).paths.length ∧
      (Board.mk [] [⟨0, 3, 1⟩, ⟨1, 5, 2⟩]).paths.get? i = some old ∧
      (old.value = (Tile.mk 3 4).x ∨ old.value = (Tile.mk 3 4).y) ∧
      b'.paths.get? i = some ⟨old.index,
        if (Tile.mk 3 4).x = old.value then (Tile.mk 3 4).y else (Tile.mk 3 4).x,
        old.depth + 1⟩ ∧
      (∀ j, j ≠ i →
        b'.paths.get? j = (Board.mk [] [⟨0, 3, 1⟩, ⟨1, 5, 2⟩]).paths.get? j) ∧
      b'.paths.length = (Board.mk [] [⟨0, 3, 1⟩, ⟨1, 5, 2⟩]).paths.length ∧
      b'.tiles = (Board.mk [] [⟨0, 3, 1⟩, ⟨1, 5, 2⟩]).tiles ++ [⟨3, 4⟩] :=
  c2_processNewTile_frame ⟨[], [⟨0, 3, 1⟩, ⟨1, 5, 2⟩]⟩ ⟨3, 4⟩ 3
    (by intro i h
        simp only [List.length_cons, List.length_nil] at h
        interval_cases i <;> rfl)
    (by decide) (Or.inl rfl)

theorem c3_witness :
    ∃ ps', makeOpeningMove [⟨[⟨6, 6⟩], 0, true⟩, ⟨[⟨1, 1⟩], 0, true⟩] ⟨[], []⟩
        = some (ps', Board.addStartingTile ⟨[], []⟩ ⟨1, 1⟩) :=
  (c3_opening_double_priority [⟨[⟨6, 6⟩], 0, true⟩, ⟨[⟨1, 1⟩], 0, true⟩] ⟨[], []⟩).1
    1 (by decide) (by decide) (by decide)
    (by intro k hk1 hk2; exact absurd hk2 (by omega))

theorem c4_witness :
    ∃ t i p,
      specFallback [⟨[⟨4, 6⟩], 0, true⟩, ⟨[⟨5, 6⟩], 0, true⟩] = some (t, i) ∧
      ([⟨[⟨4, 6⟩], 0, true⟩, ⟨[⟨5, 6⟩], 0, true⟩] : List Player).get? i = some p ∧
      t ∈ p.hand ∧
      makeOpeningMove [⟨[⟨4, 6⟩], 0, true⟩, ⟨[⟨5, 6⟩], 0, true⟩] ⟨[], []⟩ =
        some (([⟨[⟨4, 6⟩], 0, true⟩, ⟨[⟨5, 6⟩], 0, true⟩] : List Player).eraseIdx i
                ++ [{ p with hand := p.hand.erase t }],
              Board.addStartingTile ⟨[], []⟩ t) :=
  c4_amended_opening_fallback [⟨[⟨4, 6⟩], 0, true⟩, ⟨[⟨5, 6⟩], 0, true⟩] ⟨[], []⟩
    (by decide) (by decide) (by decide) (by decide)

theorem c7_witness :
    ∃ old, old ∈ Board.candidatePaths ⟨[], [⟨0, 3, 2⟩, ⟨1, 3, 1⟩, ⟨2, 3, 1⟩]⟩ ⟨3, 6⟩ 3 ∧
      Board.processNewTile ⟨[], [⟨0, 3, 2⟩, ⟨1, 3, 1⟩, ⟨2, 3, 1⟩]⟩ ⟨3, 6⟩ 3 =
        some ⟨(Board.mk [] [⟨0, 3, 2⟩, ⟨1, 3, 1⟩, ⟨2, 3, 1⟩]).tiles ++ [⟨3, 6⟩],
              (Board.mk [] [⟨0, 3, 2⟩, ⟨1, 3, 1⟩, ⟨2, 3, 1⟩]).paths.set old.index
                ⟨old.index,
                 if (Tile.mk 3 6).x = old.value then (Tile.mk 3 6).y else (Tile.mk 3 6).x,
                 old.depth + 1⟩⟩ ∧
      (∀ q ∈ Board.candidatePaths ⟨[], [⟨0, 3, 2⟩, ⟨1, 3, 1⟩, ⟨2, 3, 1⟩]⟩ ⟨3, 6⟩ 3,
        old.depth ≤ q.depth) ∧
      (∀ q ∈ Board.candidatePaths ⟨[], [⟨0, 3, 2⟩, ⟨1, 3, 1⟩, ⟨2, 3, 1⟩]⟩ ⟨3, 6⟩ 3,
        q.depth = old.depth → old.index ≤ q.index) :=
  c7_lowest_depth_first_index ⟨[], [⟨0, 3, 2⟩, ⟨1, 3, 1⟩, ⟨2, 3, 1⟩]⟩ ⟨3, 6⟩ 3
    (by intro i h
        simp only [List.length_cons, List.length_nil] at h
        interval_cases i <;> rfl)
    (by decide) (Or.inl rfl)

theorem c8_witness :
    (writeDownScores {} [⟨[⟨0, 0⟩], 5, true⟩]).get? 0 = some ⟨[⟨0, 0⟩], 15, true⟩ :=
  (c8_round_scoring {} [⟨[⟨0, 0⟩], 5, true⟩] 0 (by decide)).trans (by decide)

theorem c9_witness :
    ((Tile.mk 3 4) ∈ [Tile.mk 3 4] ∧ (Tile.mk 3 4) ∈ [Tile.mk 3 4]) ∧
    makeMoveStep ⟨[⟨[⟨3, 4⟩], 0, true⟩], [], ⟨[], [⟨0, 3, 1⟩]⟩⟩ 0 [⟨9, 9⟩, ⟨3, 4⟩] 3
      = makeMoveStep ⟨[⟨[⟨3, 4⟩], 0, true⟩], [], ⟨[], [⟨0, 3, 1⟩]⟩⟩ 0 [⟨3, 4⟩] 3 :=
  ⟨c9_illegal_move_rejected.1 [⟨3, 4⟩] [⟨3, 4⟩] [⟨3, 4⟩] ⟨3, 4⟩ rfl,
   c9_illegal_move_rejected.2 ⟨[⟨[⟨3, 4⟩], 0, true⟩], [], ⟨[], [⟨0, 3, 1⟩]⟩⟩ 0
     ⟨[⟨3, 4⟩], 0, true⟩ rfl ⟨9, 9⟩ [⟨3, 4⟩] 3 (Or.inl (by decide))⟩

theorem c10_witness :
    ((Board.mk [] []).addStartingTile ⟨2, 2⟩).paths.length
        = (if (Tile.mk 2 2).isDouble then 4 else 2) ∧
    (Board.mk [⟨3, 4⟩] [⟨0, 4, 2⟩, ⟨1, 5, 2⟩]).paths.length
        = (Board.mk [] [⟨0, 3, 1⟩, ⟨1, 5, 2⟩]).paths.length ∧
    (Board.mk [⟨3, 4⟩] [⟨0, 4, 2⟩, ⟨1, 5, 2⟩]).PathsWF ∧
    (Board.mk [] [⟨0, 3, 1⟩, ⟨1, 5, 2⟩]).paths.get? (Path.mk 1 5 2).index
        = some ⟨1, 5, 2⟩ := by
  have hwf0 : (Board.mk [] [⟨0, 3, 1⟩, ⟨1, 5, 2⟩]).PathsWF := by
    intro i h
    simp only [List.length_cons, List.length_nil] at h
    interval_cases i <;> rfl
  have h2 := c10_path_list_invariant.2.1 ⟨[], [⟨0, 3, 1⟩, ⟨1, 5, 2⟩]⟩ ⟨3, 4⟩ 3
      ⟨[⟨3, 4⟩], [⟨0, 4, 2⟩, ⟨1, 5, 2⟩]⟩ rfl
  exact ⟨(c10_path_list_invariant.1 ⟨2, 2⟩).1, h2.1, h2.2 hwf0,
    c10_path_list_invariant.2.2 ⟨[], [⟨0, 3, 1⟩, ⟨1, 5, 2⟩]⟩ hwf0 ⟨1, 5, 2⟩ (by decide)⟩

end Dominoes
